import Mathlib

/-!
Verification of `losses.py` (youtube-8m-simnet): a family of loss
functions over fixed-shape real matrices. Matrices of shape
[m, n] are shallowly embedded as functions `Fin m → Fin n → ℝ`;
TensorFlow reductions become `Finset` sums, minima and means, and
`tf.log` / `tf.exp` become `Real.log` / `Real.exp`. Process-wide
configuration flags (`false_negative_punishment`,
`false_positive_punishment`, `num_classes`, `batch_size`) are passed as
explicit parameters. All arithmetic is over ℝ (the float32 of the
source is modelled by exact real arithmetic).
-/

noncomputable section

open scoped BigOperators

/-- `tf.reduce_sum(A, 1)`: per-row sum over the class axis. -/
def reduce_sum1 {m n : ℕ} (A : Fin m → Fin n → ℝ) : Fin m → ℝ :=
  fun i => ∑ j, A i j

/-- `tf.reduce_mean(v)` on a vector of length `m`. -/
def reduce_mean {m : ℕ} (v : Fin m → ℝ) : ℝ :=
  (∑ i, v i) / m

/-- `WeightedCrossEntropyLoss.calculate_loss` from the source: per-cell
weighted binary cross entropy with `epsilon = 10e-6`, summed over the
class axis and averaged over the batch. The two punishment weights are
the process-wide flags, passed here explicitly. -/
def WeightedCrossEntropyLoss.calculate_loss {m n : ℕ}
    (false_negative_punishment false_positive_punishment : ℝ)
    (predictions labels : Fin m → Fin n → ℝ) : ℝ :=
  let epsilon : ℝ := 10e-6
  let float_labels := labels
  let cross_entropy_loss := fun (i : Fin m) (j : Fin n) =>
    false_negative_punishment * float_labels i j
        * Real.log (predictions i j + epsilon)
      + false_positive_punishment * (1 - float_labels i j)
        * Real.log (1 - predictions i j + epsilon)
  reduce_mean (reduce_sum1 (fun i j => -(cross_entropy_loss i j)))

/-- `CrossEntropyLoss.calculate_loss` from the source: per-cell binary
cross entropy with `epsilon = 10e-6`, summed over the class axis and
averaged over the batch. -/
def CrossEntropyLoss.calculate_loss {m n : ℕ}
    (predictions labels : Fin m → Fin n → ℝ) : ℝ :=
  let epsilon : ℝ := 10e-6
  let float_labels := labels
  let cross_entropy_loss := fun (i : Fin m) (j : Fin n) =>
    float_labels i j * Real.log (predictions i j + epsilon)
      + (1 - float_labels i j) * Real.log (1 - predictions i j + epsilon)
  reduce_mean (reduce_sum1 (fun i j => -(cross_entropy_loss i j)))

/-- The weighted cross-entropy formula as the spec words it, with the
epsilon left as a parameter: per cell
`-(fn * y * log (p + ε) + fp * (1 - y) * log (1 - p + ε))`,
summed across classes per example, averaged across the batch. -/
def wceSpecFormula {m n : ℕ} (fn fp ε : ℝ)
    (p y : Fin m → Fin n → ℝ) : ℝ :=
  (∑ i, ∑ j, -(fn * y i j * Real.log (p i j + ε)
      + fp * (1 - y i j) * Real.log (1 - p i j + ε))) / m

/-- C1: for every predictions/labels pair of identical shape,
`CrossEntropyLoss.calculate_loss` equals
`WeightedCrossEntropyLoss.calculate_loss` with both punishment weights
set to 1. -/
theorem cross_entropy_is_weighted_with_unit_weights {m n : ℕ}
    (predictions labels : Fin m → Fin n → ℝ) :
    CrossEntropyLoss.calculate_loss predictions labels =
      WeightedCrossEntropyLoss.calculate_loss 1 1 predictions labels := by
  unfold CrossEntropyLoss.calculate_loss WeightedCrossEntropyLoss.calculate_loss
  simp [one_mul]

/-- C2 counterexample: at `predictions = [[0]]`, `labels = [[1]]` the
source loss (whose epsilon literal is `10e-6`, i.e. `1e-5`) differs
from the spec's formula with epsilon exactly `1e-6`. -/
theorem wce_epsilon_is_not_1e6 :
    WeightedCrossEntropyLoss.calculate_loss 1 1
        (fun (_ : Fin 1) (_ : Fin 1) => (0 : ℝ)) (fun _ _ => 1) ≠
      wceSpecFormula 1 1 1e-6 (fun (_ : Fin 1) (_ : Fin 1) => (0 : ℝ))
        (fun _ _ => 1) := by
  unfold WeightedCrossEntropyLoss.calculate_loss wceSpecFormula
    reduce_mean reduce_sum1
  have h : Real.log 1e-6 < Real.log 10e-6 :=
    Real.log_lt_log (by norm_num) (by norm_num)
  simp only [Fin.sum_univ_one]
  norm_num
  intro hEq
  linarith

/-- C2 amended: `WeightedCrossEntropyLoss.calculate_loss` computes the
spec's formula with epsilon equal to the code's literal `10e-6`, which
is `1e-5` (not `1e-6`). -/
theorem wce_matches_formula_with_eps_1e5 {m n : ℕ} (fn fp : ℝ)
    (p y : Fin m → Fin n → ℝ) :
    WeightedCrossEntropyLoss.calculate_loss fn fp p y =
        wceSpecFormula fn fp 10e-6 p y ∧ (10e-6 : ℝ) = 1e-5 := by
  constructor
  · unfold WeightedCrossEntropyLoss.calculate_loss wceSpecFormula
      reduce_mean reduce_sum1
    norm_num
  · norm_num

/-- `HingeLoss.calculate_loss` from the source: labels are rescaled to
signs `2*y - 1`, the per-cell hinge is `max(all_zeros, b*all_ones -
sign*pred)`, summed over the class axis and averaged over the batch.
The margin `b` defaults to `1.0` in the source. -/
def HingeLoss.calculate_loss {m n : ℕ}
    (predictions labels : Fin m → Fin n → ℝ) (b : ℝ) : ℝ :=
  let float_labels := labels
  let all_zeros : Fin m → Fin n → ℝ := fun _ _ => 0
  let all_ones : Fin m → Fin n → ℝ := fun _ _ => 1
  let sign_labels := fun i j => 2 * float_labels i j - all_ones i j
  let hinge_loss := fun i j =>
    max (all_zeros i j) (b * all_ones i j - sign_labels i j * predictions i j)
  reduce_mean (reduce_sum1 hinge_loss)

/-- The hinge formula as the spec words it: per cell
`max(0, b - (2y - 1) * p)`, summed over classes, averaged over the
batch. -/
def hingeSpecFormula {m n : ℕ} (b : ℝ) (p y : Fin m → Fin n → ℝ) : ℝ :=
  (∑ i, ∑ j, max 0 (b - (2 * y i j - 1) * p i j)) / m

/-- C7: `HingeLoss.calculate_loss` computes the spec's rescaled-label
hinge formula, and at `predictions = [[0.5, -0.5]]`,
`labels = [[1, 0]]`, `b = 1.0` it evaluates to exactly `1.0`. -/
theorem hinge_loss_formula_and_concrete_value :
    (∀ (m n : ℕ) (b : ℝ) (p y : Fin m → Fin n → ℝ),
        HingeLoss.calculate_loss p y b = hingeSpecFormula b p y) ∧
      HingeLoss.calculate_loss
        (fun (_ : Fin 1) => ![(0.5 : ℝ), -0.5]) (fun _ => ![1, 0]) 1 = 1 := by
  constructor
  · intro m n b p y
    unfold HingeLoss.calculate_loss hingeSpecFormula reduce_mean reduce_sum1
    norm_num
  · unfold HingeLoss.calculate_loss reduce_mean reduce_sum1
    simp [Fin.sum_univ_two]
    norm_num [max_def]

/-- `RealHingeLoss.calculate_loss` from the source: the pairwise mask
`mask[i,j,k] = y[i,j] * (1 - y[i,k])` multiplies the broadcast pairwise
hinge `max(0, b - p[i,j] + p[i,k])`; the product is summed over both
class axes and averaged over the batch. The margin `b` defaults to
`0.2` in the source. -/
def RealHingeLoss.calculate_loss {m n : ℕ}
    (predictions labels : Fin m → Fin n → ℝ) (b : ℝ) : ℝ :=
  let float_labels := labels
  let truth := float_labels
  let other := fun (i : Fin m) (k : Fin n) => 1 - float_labels i k
  let mask := fun (i : Fin m) (j k : Fin n) => truth i j * other i k
  let loss := fun (i : Fin m) (j k : Fin n) =>
    max 0 (b - predictions i j + predictions i k)
  reduce_mean (fun i => ∑ j, ∑ k, loss i j k * mask i j k)

/-- The contribution of one example row to `RealHingeLoss`: the masked
pairwise hinge summed over both class axes, before the batch mean. -/
def RealHingeLoss.rowLoss {m n : ℕ}
    (predictions labels : Fin m → Fin n → ℝ) (b : ℝ) (i : Fin m) : ℝ :=
  ∑ j, ∑ k, max 0 (b - predictions i j + predictions i k)
    * (labels i j * (1 - labels i k))

/-- C8: a row whose labels are all zero or all one contributes exactly
zero to `RealHingeLoss.calculate_loss`, whatever the predictions and
the margin, and the loss is the batch mean of the row contributions. -/
theorem real_hinge_trivial_row_contributes_zero {m n : ℕ}
    (p y : Fin m → Fin n → ℝ) (b : ℝ) (i₀ : Fin m)
    (h : (∀ j, y i₀ j = 0) ∨ (∀ j, y i₀ j = 1)) :
    RealHingeLoss.rowLoss p y b i₀ = 0 ∧
      RealHingeLoss.calculate_loss p y b =
        (∑ i, RealHingeLoss.rowLoss p y b i) / m := by
  constructor
  · unfold RealHingeLoss.rowLoss
    refine Finset.sum_eq_zero fun j _ => Finset.sum_eq_zero fun k _ => ?_
    rcases h with h0 | h1
    · rw [h0 j]; ring
    · rw [h1 k]; ring
  · unfold RealHingeLoss.calculate_loss RealHingeLoss.rowLoss reduce_mean
    norm_num

/-- C8 witness: at `predictions = [[0]]`, `labels = [[0]]`, `b = 0.2`
the single all-zero row contributes zero. -/
theorem real_hinge_trivial_row_witness :
    RealHingeLoss.rowLoss (fun (_ : Fin 1) (_ : Fin 1) => (0 : ℝ))
        (fun _ _ => 0) 0.2 0 = 0 ∧
      RealHingeLoss.calculate_loss (fun (_ : Fin 1) (_ : Fin 1) => (0 : ℝ))
          (fun _ _ => 0) 0.2 =
        (∑ i, RealHingeLoss.rowLoss
          (fun (_ : Fin 1) (_ : Fin 1) => (0 : ℝ)) (fun _ _ => 0) 0.2 i) / 1 := by
  simpa using real_hinge_trivial_row_contributes_zero
    (fun (_ : Fin 1) (_ : Fin 1) => (0 : ℝ)) (fun _ _ => 0) 0.2
    (0 : Fin 1) (Or.inl fun _ => rfl)

/-- `SoftmaxLoss.calculate_loss` from the source: labels are L1
normalized per row with the row sum clamped below by
`epsilon = 10e-8`, predictions go through softmax along the class
axis, the per-example loss is minus the dot product of the normalized
labels with the logged softmax outputs, and the result is the batch
mean. -/
def SoftmaxLoss.calculate_loss {m n : ℕ}
    (predictions labels : Fin m → Fin n → ℝ) : ℝ :=
  let epsilon : ℝ := 10e-8
  let float_labels := labels
  let label_rowsum := fun (i : Fin m) => max (∑ j, float_labels i j) epsilon
  let norm_float_labels := fun (i : Fin m) (j : Fin n) =>
    float_labels i j / label_rowsum i
  let softmax_outputs := fun (i : Fin m) (j : Fin n) =>
    Real.exp (predictions i j) / ∑ k, Real.exp (predictions i k)
  let softmax_loss := fun (i : Fin m) =>
    -(∑ j, norm_float_labels i j * Real.log (softmax_outputs i j))
  reduce_mean softmax_loss

/-- The softmax-loss formula as the spec words it, with the label
row-sum clamp left as a parameter: normalize each label row by
`max(sum, ε)`, take `-sum(y' * log(softmax p))` per example, and
average over the batch. -/
def softmaxSpecFormula {m n : ℕ} (ε : ℝ)
    (p y : Fin m → Fin n → ℝ) : ℝ :=
  (∑ i, -(∑ j, (y i j / max (∑ k, y i k) ε)
      * Real.log (Real.exp (p i j) / ∑ k, Real.exp (p i k)))) / m

/-- C5 counterexample: at `predictions = [[0, 0]]`,
`labels = [[5e-8, 0]]` the source loss (whose clamp literal is
`10e-8`, i.e. `1e-7`) gives `(1/2) * log 2`, while the spec's formula
with a `1e-8` clamp gives `log 2`. -/
theorem softmax_epsilon_is_not_1e8 :
    SoftmaxLoss.calculate_loss
        (fun (_ : Fin 1) (_ : Fin 2) => (0 : ℝ)) (fun _ => ![5e-8, 0]) ≠
      softmaxSpecFormula 1e-8
        (fun (_ : Fin 1) (_ : Fin 2) => (0 : ℝ)) (fun _ => ![5e-8, 0]) := by
  unfold SoftmaxLoss.calculate_loss softmaxSpecFormula reduce_mean
  have hhalf : Real.log ((1 : ℝ) / 2) = -Real.log 2 := by
    rw [one_div, Real.log_inv]
  simp only [Fin.sum_univ_two, Fin.sum_univ_one, Matrix.cons_val_zero,
    Matrix.cons_val_one, Matrix.head_cons, Real.exp_zero]
  rw [show max ((5e-8 : ℝ) + 0) 10e-8 = 1e-7 by
      rw [max_eq_right] <;> norm_num,
    show max ((5e-8 : ℝ) + 0) 1e-8 = 5e-8 by
      rw [max_eq_left] <;> norm_num]
  norm_num [hhalf]

/-- C5 amended: `SoftmaxLoss.calculate_loss` computes the spec's
formula with the label row-sum clamp equal to the code's literal
`10e-8`, which is `1e-7` (not `1e-8`). -/
theorem softmax_matches_formula_with_eps_1e7 {m n : ℕ}
    (p y : Fin m → Fin n → ℝ) :
    SoftmaxLoss.calculate_loss p y = softmaxSpecFormula 10e-8 p y ∧
      (10e-8 : ℝ) = 1e-7 := by
  constructor
  · unfold SoftmaxLoss.calculate_loss softmaxSpecFormula reduce_mean
    norm_num
  · norm_num

/-- The error signalled when a loss operation is not implemented;
models Python's `NotImplementedError` raised by the base contract. -/
inductive LossError
  | notImplementedError
deriving DecidableEq

/-- `BaseLoss.calculate_loss` from the source: the abstract contract
raises `NotImplementedError` unconditionally, whatever the arguments;
modelled as an `Except` value carrying the error. -/
def BaseLoss.calculate_loss {m n c d : ℕ}
    (unused_predictions : Fin m → Fin n → ℝ)
    (unused_positives : Fin c → Fin d → ℝ)
    (unused_labels : Fin m → Fin n → ℝ) : Except LossError ℝ :=
  Except.error LossError.notImplementedError

/-- C9: calling `calculate_loss` directly on the abstract `BaseLoss`
contract, with any arguments, signals an unimplemented-operation error
and never returns a value. -/
theorem base_loss_signals_not_implemented {m n c d : ℕ}
    (predictions : Fin m → Fin n → ℝ) (positives : Fin c → Fin d → ℝ)
    (labels : Fin m → Fin n → ℝ) :
    BaseLoss.calculate_loss predictions positives labels =
      Except.error LossError.notImplementedError ∧
      ∀ r : ℝ, BaseLoss.calculate_loss predictions positives labels ≠
        Except.ok r :=
  ⟨rfl, fun _ h => Except.noConfusion h⟩

/-- `tf.nn.l2_normalize(v)` along the last axis, with TensorFlow's
default epsilon `1e-12`: `v / sqrt(max(sum(v^2), 1e-12))`. -/
def l2_normalize {d : ℕ} (v : Fin d → ℝ) : Fin d → ℝ :=
  fun k => v k / Real.sqrt (max (∑ t, v t ^ 2) 1e-12)

/-- `tf.reduce_min` over a (nonempty) class axis. -/
def reduce_min {n : ℕ} (v : Fin (n + 1) → ℝ) : ℝ :=
  Finset.univ.inf' Finset.univ_nonempty v

/-- `tf.tile(l, [k])` on a flat list: `k` concatenated copies of `l`. -/
def tile {α : Type} (l : List α) (k : ℕ) : List α :=
  (List.replicate k l).flatten

/-- `sim_pos` from `CosineHingeLoss.calculate_loss`:
`einsum("ik,jk->ij")` of the L2-normalized predictions against the
L2-normalized positive embeddings, i.e. the cosine-similarity matrix. -/
def CosineHingeLoss.sim_pos {B D c : ℕ} (predictions : Fin B → Fin D → ℝ)
    (positives : Fin c → Fin D → ℝ) : Fin B → Fin c → ℝ :=
  fun i j => ∑ k, l2_normalize (predictions i) k * l2_normalize (positives j) k

/-- `min_sim` from `CosineHingeLoss.calculate_loss`:
`reduce_min((sim_pos - 1.0) * mask, axis=1) + 1.0`, where the mask is
the float-cast label matrix. -/
def CosineHingeLoss.min_sim {B D n : ℕ} (predictions : Fin B → Fin D → ℝ)
    (positives : Fin (n + 1) → Fin D → ℝ)
    (labels : Fin B → Fin (n + 1) → ℝ) : Fin B → ℝ :=
  fun i => reduce_min (fun j =>
    (CosineHingeLoss.sim_pos predictions positives i j - 1) * labels i j) + 1

/-- `mask_wrong` from `CosineHingeLoss.calculate_loss`:
`cast(sim_pos > min_sim) * reverse_mask` (`tf.stop_gradient` is the
identity on values). -/
def CosineHingeLoss.mask_wrong {B D n : ℕ} (predictions : Fin B → Fin D → ℝ)
    (positives : Fin (n + 1) → Fin D → ℝ)
    (labels : Fin B → Fin (n + 1) → ℝ) : Fin B → Fin (n + 1) → ℝ :=
  fun i j =>
    (if CosineHingeLoss.min_sim predictions positives labels i <
        CosineHingeLoss.sim_pos predictions positives i j then 1 else 0)
      * (1 - labels i j)

/-- `int_labels` from `CosineHingeLoss.calculate_loss`:
`tf.cast(labels, tf.int32)`. For the contract's label range `[0, 1]`
(non-negative values) the float-to-int truncation coincides with the
floor. -/
def CosineHingeLoss.int_labels {c : ℕ} (labelRow : Fin c → ℝ) : Fin c → ℤ :=
  fun j => ⌊labelRow j⌋

/-- `tf.where(sample_label > 0)` for one example row: the labelled
class indices in increasing order. -/
def CosineHingeLoss.positiveIndices {c : ℕ} (labelRow : Fin c → ℝ) :
    List (Fin c) :=
  (List.finRange c).filter fun j => decide (0 < CosineHingeLoss.int_labels labelRow j)

/-- `tf.tile(indices[:,0], [num_classes])[:num_classes]` for one
example row: the positive indices tiled `num_classes` times and cut to
length `num_classes`. -/
def CosineHingeLoss.expanded_indices {c : ℕ} (labelRow : Fin c → ℝ) :
    List (Fin c) :=
  (tile (CosineHingeLoss.positiveIndices labelRow) c).take c

/-- `tf.gather(expanded_indices, rand_arrange)` at one slot: the
`r`-th entry of the tiled positive-index list, `none` when `r` is out
of range (the gather fails). -/
def CosineHingeLoss.sampleIndex {c : ℕ} (labelRow : Fin c → ℝ) (r : Fin c) :
    Option (Fin c) :=
  (CosineHingeLoss.expanded_indices labelRow).get? r

/-- The per-example positive-resampling loop of
`CosineHingeLoss.calculate_loss`: for each example and each class slot,
gather a uniformly-random entry of the tiled positive-index list of
that example's row. `rand` stands for the `tf.random_uniform` draw.
The result is `none` when any gather is out of range. -/
def CosineHingeLoss.samplePositives {B c : ℕ} (labels : Fin B → Fin c → ℝ)
    (rand : Fin B → Fin c → Fin c) : Option (Fin B → Fin c → Fin c) :=
  if h : ∀ i j, (CosineHingeLoss.sampleIndex (labels i) (rand i j)).isSome = true
  then some fun i j => (CosineHingeLoss.sampleIndex (labels i) (rand i j)).get (h i j)
  else none

/-- `sim_sample_pos` from `CosineHingeLoss.calculate_loss`:
`einsum("ik,ijk->ij")` of the normalized predictions against the
L2-normalized resampled positive embeddings `s`. -/
def CosineHingeLoss.sim_sample_pos {B D c : ℕ}
    (predictions : Fin B → Fin D → ℝ) (positives : Fin c → Fin D → ℝ)
    (s : Fin B → Fin c → Fin c) : Fin B → Fin c → ℝ :=
  fun i j => ∑ k, l2_normalize (predictions i) k * l2_normalize (positives (s i j)) k

/-- `hinge_loss` from `CosineHingeLoss.calculate_loss`:
`maximum(sim_pos - sim_sample_pos + margin, 0.0)` elementwise. -/
def CosineHingeLoss.hinge_loss {B D c : ℕ}
    (predictions : Fin B → Fin D → ℝ) (positives : Fin c → Fin D → ℝ)
    (s : Fin B → Fin c → Fin c) (margin : ℝ) : Fin B → Fin c → ℝ :=
  fun i j =>
    max (CosineHingeLoss.sim_pos predictions positives i j
      - CosineHingeLoss.sim_sample_pos predictions positives s i j + margin) 0

/-- `adaptive_loss` from `CosineHingeLoss.calculate_loss`: the hinge
tensor weighted by the hard-negative mask, summed over classes and
averaged over the batch. -/
def CosineHingeLoss.adaptive_loss {B D n : ℕ}
    (predictions : Fin B → Fin D → ℝ) (positives : Fin (n + 1) → Fin D → ℝ)
    (labels : Fin B → Fin (n + 1) → ℝ)
    (s : Fin B → Fin (n + 1) → Fin (n + 1)) (margin : ℝ) : ℝ :=
  reduce_mean (reduce_sum1 fun i j =>
    CosineHingeLoss.hinge_loss predictions positives s margin i j
      * CosineHingeLoss.mask_wrong predictions positives labels i j)

/-- `origin_loss` from `CosineHingeLoss.calculate_loss`: the hinge
tensor weighted by the plain negative mask `reverse_mask = 1 - labels`,
summed over classes and averaged over the batch. -/
def CosineHingeLoss.origin_loss {B D n : ℕ}
    (predictions : Fin B → Fin D → ℝ) (positives : Fin (n + 1) → Fin D → ℝ)
    (labels : Fin B → Fin (n + 1) → ℝ)
    (s : Fin B → Fin (n + 1) → Fin (n + 1)) (margin : ℝ) : ℝ :=
  reduce_mean (reduce_sum1 fun i j =>
    CosineHingeLoss.hinge_loss predictions positives s margin i j
      * (1 - labels i j))

/-- `CosineHingeLoss.calculate_loss` from the source. The random draw
of the resampling loop is passed as `rand`; the margin defaults to
`0.2` and `adaptive` to `5` in the source. The result is `none` when
the positive resampling fails, `Sum.inl` of a scalar on the
`adaptive > 0` branch, and `Sum.inr` of the raw elementwise hinge
tensor of shape `[batch, num_classes]` on the other branch. -/
def CosineHingeLoss.calculate_loss {B D n : ℕ}
    (predictions : Fin B → Fin D → ℝ) (positives : Fin (n + 1) → Fin D → ℝ)
    (labels : Fin B → Fin (n + 1) → ℝ)
    (rand : Fin B → Fin (n + 1) → Fin (n + 1)) (margin adaptive : ℝ) :
    Option (ℝ ⊕ (Fin B → Fin (n + 1) → ℝ)) :=
  match CosineHingeLoss.samplePositives labels rand with
  | none => none
  | some s =>
    if 0 < adaptive then
      some (Sum.inl (adaptive
        * CosineHingeLoss.adaptive_loss predictions positives labels s margin
        + CosineHingeLoss.origin_loss predictions positives labels s margin))
    else
      some (Sum.inr (CosineHingeLoss.hinge_loss predictions positives s margin))

/-- C4: when the positive resampling yields `s`,
`CosineHingeLoss.calculate_loss` returns the scalar
`adaptive * adaptive_loss + origin_loss` whenever `adaptive > 0`
(default 5), and the raw elementwise hinge tensor of shape
`[batch, num_classes]`, with no reduction, when `adaptive <= 0`. -/
theorem cosine_hinge_branch_structure {B D n : ℕ}
    (predictions : Fin B → Fin D → ℝ) (positives : Fin (n + 1) → Fin D → ℝ)
    (labels : Fin B → Fin (n + 1) → ℝ)
    (rand : Fin B → Fin (n + 1) → Fin (n + 1)) (margin adaptive : ℝ)
    (s : Fin B → Fin (n + 1) → Fin (n + 1))
    (hs : CosineHingeLoss.samplePositives labels rand = some s) :
    (0 < adaptive →
      CosineHingeLoss.calculate_loss predictions positives labels rand
          margin adaptive =
        some (Sum.inl (adaptive
          * CosineHingeLoss.adaptive_loss predictions positives labels s margin
          + CosineHingeLoss.origin_loss predictions positives labels s margin))) ∧
    (adaptive ≤ 0 →
      CosineHingeLoss.calculate_loss predictions positives labels rand
          margin adaptive =
        some (Sum.inr
          (CosineHingeLoss.hinge_loss predictions positives s margin))) := by
  unfold CosineHingeLoss.calculate_loss
  rw [hs]
  constructor
  · intro h
    exact if_pos h
  · intro h
    exact if_neg (not_lt.mpr h)

/-- C4 witness: at batch 1, one class, one embedding dimension, with
`predictions = [[1]]`, `positives = [[1]]`, `labels = [[1]]` and the
random draw picking slot 0, the resampling succeeds and both branches
return as the theorem states. -/
theorem cosine_hinge_branch_structure_witness :
    (@CosineHingeLoss.calculate_loss 1 1 0 (fun _ _ => 1) (fun _ _ => 1)
        (fun _ _ => 1) (fun _ _ => 0) 0.2 5 =
      some (Sum.inl (5
        * @CosineHingeLoss.adaptive_loss 1 1 0 (fun _ _ => 1) (fun _ _ => 1)
            (fun _ _ => 1) (fun _ _ => 0) 0.2
        + @CosineHingeLoss.origin_loss 1 1 0 (fun _ _ => 1) (fun _ _ => 1)
            (fun _ _ => 1) (fun _ _ => 0) 0.2))) ∧
    (@CosineHingeLoss.calculate_loss 1 1 0 (fun _ _ => 1) (fun _ _ => 1)
        (fun _ _ => 1) (fun _ _ => 0) 0.2 0 =
      some (Sum.inr (@CosineHingeLoss.hinge_loss 1 1 1 (fun _ _ => 1)
        (fun _ _ => 1) (fun _ _ => 0) 0.2))) := by
  have hidx : CosineHingeLoss.sampleIndex (fun (_ : Fin 1) => (1 : ℝ)) 0 =
      some 0 := by
    unfold CosineHingeLoss.sampleIndex CosineHingeLoss.expanded_indices tile
      CosineHingeLoss.positiveIndices CosineHingeLoss.int_labels
    simp [List.finRange_succ]
  have hs : @CosineHingeLoss.samplePositives 1 1
      (fun _ _ => 1) (fun _ _ => 0) = some (fun _ _ => 0) := by
    have hAll : ∀ (i j : Fin 1),
        (CosineHingeLoss.sampleIndex ((fun (_ : Fin 1) (_ : Fin 1) => (1 : ℝ)) i)
          ((fun (_ : Fin 1) (_ : Fin 1) => (0 : Fin 1)) i j)).isSome = true := by
      intro i j
      rw [show ((fun (_ : Fin 1) (_ : Fin 1) => (0 : Fin 1)) i j) =
        (0 : Fin 1) from rfl]
      rw [hidx]
      rfl
    unfold CosineHingeLoss.samplePositives
    rw [dif_pos hAll]
    congr 1
    funext i j
    simp [hidx]
  exact ⟨(cosine_hinge_branch_structure (fun _ _ => 1) (fun _ _ => 1)
      (fun _ _ => 1) (fun _ _ => 0) 0.2 5 (fun _ _ => 0) hs).1 (by norm_num),
    (cosine_hinge_branch_structure (fun _ _ => 1) (fun _ _ => 1)
      (fun _ _ => 1) (fun _ _ => 0) 0.2 0 (fun _ _ => 0) hs).2 le_rfl⟩

/-- The L2-normalized vector has squared norm at most 1 (at most,
because the `1e-12` clamp can make the divisor exceed the norm). -/
theorem l2_normalize_sum_sq_le_one {d : ℕ} (v : Fin d → ℝ) :
    ∑ k, l2_normalize v k ^ 2 ≤ 1 := by
  unfold l2_normalize
  have hM : (0 : ℝ) < max (∑ t, v t ^ 2) 1e-12 :=
    lt_max_of_lt_right (by norm_num)
  have hs : Real.sqrt (max (∑ t, v t ^ 2) 1e-12) ^ 2 =
      max (∑ t, v t ^ 2) 1e-12 := Real.sq_sqrt hM.le
  calc ∑ k, (v k / Real.sqrt (max (∑ t, v t ^ 2) 1e-12)) ^ 2
      = (∑ k, v k ^ 2) / (max (∑ t, v t ^ 2) 1e-12) := by
        rw [← hs]
        simp [div_pow, Finset.sum_div]
    _ ≤ 1 := by
        rw [div_le_one hM]
        exact le_max_left _ _

/-- Every entry of the cosine-similarity matrix `sim_pos` is at most 1
(Cauchy-Schwarz on the normalized vectors). -/
theorem sim_pos_le_one {B D c : ℕ} (predictions : Fin B → Fin D → ℝ)
    (positives : Fin c → Fin D → ℝ) (i : Fin B) (j : Fin c) :
    CosineHingeLoss.sim_pos predictions positives i j ≤ 1 := by
  unfold CosineHingeLoss.sim_pos
  have hcs := Finset.sum_mul_sq_le_sq_mul_sq Finset.univ
    (fun k => l2_normalize (predictions i) k)
    (fun k => l2_normalize (positives j) k)
  have ha := l2_normalize_sum_sq_le_one (predictions i)
  have hb := l2_normalize_sum_sq_le_one (positives j)
  have ha0 : (0 : ℝ) ≤ ∑ k, l2_normalize (predictions i) k ^ 2 :=
    Finset.sum_nonneg fun _ _ => sq_nonneg _
  have hb0 : (0 : ℝ) ≤ ∑ k, l2_normalize (positives j) k ^ 2 :=
    Finset.sum_nonneg fun _ _ => sq_nonneg _
  have hsq : (∑ k, l2_normalize (predictions i) k
      * l2_normalize (positives j) k) ^ 2 ≤ 1 := by
    refine hcs.trans ?_
    nlinarith
  nlinarith [sq_nonneg ((∑ k, l2_normalize (predictions i) k
    * l2_normalize (positives j) k) - 1)]

/-- Shifting a pointwise minimum by a constant: the minimum of
`g - 1` plus one is the minimum of `g`. -/
theorem inf'_sub_one_add_one {c : ℕ} (S : Finset (Fin c))
    (hne : S.Nonempty) (g : Fin c → ℝ) :
    S.inf' hne (fun j => g j - 1) + 1 = S.inf' hne g := by
  apply le_antisymm
  · refine Finset.le_inf' hne _ fun j hj => ?_
    have h2 := Finset.inf'_le (fun j => g j - 1) hj
    linarith
  · obtain ⟨j₁, hj₁, h₁⟩ := S.exists_mem_eq_inf' hne fun j => g j - 1
    have h3 := Finset.inf'_le g hj₁
    linarith

/-- C6: for every example whose label row has at least one positive
entry, `min_sim` — computed in the source as
`reduce_min((sim_pos - 1) * mask, axis=1) + 1` — equals the minimum
cosine similarity `sim_pos i j` over exactly the classes `j` labelled
true for that example, because every cosine similarity is at most 1,
so masked-out entries contribute 0, which never undercuts a true-class
entry of `sim_pos - 1`. -/
theorem min_sim_is_min_over_true_classes {B D n : ℕ}
    (predictions : Fin B → Fin D → ℝ) (positives : Fin (n + 1) → Fin D → ℝ)
    (labels : Fin B → Fin (n + 1) → ℝ) (i : Fin B)
    (hbin : ∀ j, labels i j = 0 ∨ labels i j = 1)
    (hpos : ∃ j, labels i j = 1) :
    ∃ hne : (Finset.univ.filter fun j => labels i j = 1).Nonempty,
      CosineHingeLoss.min_sim predictions positives labels i =
        (Finset.univ.filter fun j => labels i j = 1).inf' hne
          (CosineHingeLoss.sim_pos predictions positives i) := by
  obtain ⟨j₁, hj₁⟩ := hpos
  have hne : (Finset.univ.filter fun j => labels i j = 1).Nonempty :=
    ⟨j₁, Finset.mem_filter.mpr ⟨Finset.mem_univ _, hj₁⟩⟩
  refine ⟨hne, ?_⟩
  unfold CosineHingeLoss.min_sim reduce_min
  have key : (Finset.univ.inf' Finset.univ_nonempty fun j =>
      (CosineHingeLoss.sim_pos predictions positives i j - 1) * labels i j) =
      (Finset.univ.filter fun j => labels i j = 1).inf' hne
        (fun j => CosineHingeLoss.sim_pos predictions positives i j - 1) := by
    apply le_antisymm
    · refine Finset.le_inf' hne _ fun j hj => ?_
      have hjl : labels i j = 1 := (Finset.mem_filter.mp hj).2
      have h2 := Finset.inf'_le (fun j =>
        (CosineHingeLoss.sim_pos predictions positives i j - 1) * labels i j)
        (Finset.mem_univ j)
      rw [hjl, mul_one] at h2
      exact h2
    · refine Finset.le_inf' Finset.univ_nonempty _ fun j _ => ?_
      rcases hbin j with h0 | h1
      · rw [h0, mul_zero]
        have hj1mem : j₁ ∈ Finset.univ.filter fun j => labels i j = 1 :=
          Finset.mem_filter.mpr ⟨Finset.mem_univ j₁, hj₁⟩
        have hle := Finset.inf'_le (fun j =>
          CosineHingeLoss.sim_pos predictions positives i j - 1) hj1mem
        have hs1 := sim_pos_le_one predictions positives i j₁
        linarith
      · rw [h1, mul_one]
        have hjmem : j ∈ Finset.univ.filter fun j => labels i j = 1 :=
          Finset.mem_filter.mpr ⟨Finset.mem_univ j, h1⟩
        exact Finset.inf'_le (fun j =>
          CosineHingeLoss.sim_pos predictions positives i j - 1) hjmem
  rw [key]
  exact inf'_sub_one_add_one _ hne _

/-- C6 witness: at batch 1, one class, one embedding dimension, with
`predictions = [[1]]`, `positives = [[1]]`, `labels = [[1]]`, the
single row has a positive entry and `min_sim` is the minimum of
`sim_pos` over its true classes. -/
theorem min_sim_is_min_over_true_classes_witness :
    ∃ hne : (Finset.univ.filter fun j =>
        (fun (_ : Fin 1) (_ : Fin 1) => (1 : ℝ)) 0 j = 1).Nonempty,
      @CosineHingeLoss.min_sim 1 1 0 (fun _ _ => 1) (fun _ _ => 1)
          (fun _ _ => 1) 0 =
        (Finset.univ.filter fun j =>
            (fun (_ : Fin 1) (_ : Fin 1) => (1 : ℝ)) 0 j = 1).inf' hne
          (@CosineHingeLoss.sim_pos 1 1 1 (fun _ _ => 1) (fun _ _ => 1) 0) :=
  min_sim_is_min_over_true_classes (fun _ _ => 1) (fun _ _ => 1)
    (fun _ _ => 1) 0 (fun _ => Or.inr rfl) ⟨0, rfl⟩

/-- The tiled list has length `k` times the original length. -/
theorem tile_length {α : Type} (l : List α) (k : ℕ) :
    (tile l k).length = k * l.length := by
  induction k with
  | zero => simp [tile]
  | succ k ih =>
    unfold tile at ih ⊢
    rw [List.replicate_succ, List.flatten_cons, List.length_append, ih]
    ring

/-- Every element of the tiled list is an element of the original
list. -/
theorem mem_of_mem_tile {α : Type} {l : List α} {k : ℕ} {x : α}
    (h : x ∈ tile l k) : x ∈ l := by
  unfold tile at h
  rcases List.mem_flatten.mp h with ⟨l', hl', hx⟩
  rwa [List.eq_of_mem_replicate hl'] at hx

/-- C10: the positive-resampling step of `CosineHingeLoss` requires
every example row to contain a positive label. If some row is all
zero, the gather from that row's (empty) tiled positive-index list
fails, so the sampling returns `none`; if every row has a label at
least 1, the sampling succeeds and every sampled index is a
positively-labelled class of its row. -/
theorem cosine_hinge_requires_positive_labels {B n : ℕ}
    (labels : Fin B → Fin (n + 1) → ℝ)
    (rand : Fin B → Fin (n + 1) → Fin (n + 1)) :
    ((∃ i, ∀ j, labels i j = 0) →
        CosineHingeLoss.samplePositives labels rand = none) ∧
    ((∀ i, ∃ j, 1 ≤ labels i j) →
        ∃ s, CosineHingeLoss.samplePositives labels rand = some s ∧
          ∀ i j, 1 ≤ labels i (s i j)) := by
  constructor
  · rintro ⟨i, hi⟩
    have hempty : CosineHingeLoss.positiveIndices (labels i) = [] := by
      unfold CosineHingeLoss.positiveIndices CosineHingeLoss.int_labels
      refine List.filter_eq_nil_iff.mpr fun j _ => ?_
      simp [hi j]
    have htile : tile (CosineHingeLoss.positiveIndices (labels i)) (n + 1)
        = [] := by
      refine List.length_eq_zero.mp ?_
      rw [tile_length, hempty]
      simp
    have hnone : CosineHingeLoss.sampleIndex (labels i) (rand i 0) = none := by
      unfold CosineHingeLoss.sampleIndex CosineHingeLoss.expanded_indices
      rw [htile]
      simp
    unfold CosineHingeLoss.samplePositives
    rw [dif_neg]
    intro hAll
    have h := hAll i 0
    rw [hnone] at h
    simp at h
  · intro hpos
    have hlen : ∀ i, (CosineHingeLoss.expanded_indices (labels i)).length
        = n + 1 := by
      intro i
      obtain ⟨j, hj⟩ := hpos i
      have hjmem : j ∈ CosineHingeLoss.positiveIndices (labels i) := by
        unfold CosineHingeLoss.positiveIndices CosineHingeLoss.int_labels
        refine List.mem_filter.mpr ⟨List.mem_finRange j, ?_⟩
        simp only [decide_eq_true_eq]
        have : (1 : ℤ) ≤ ⌊labels i j⌋ := Int.le_floor.mpr (by exact_mod_cast hj)
        omega
      have hne : CosineHingeLoss.positiveIndices (labels i) ≠ [] :=
        fun h => by simp [h] at hjmem
      have hlen1 : 1 ≤ (CosineHingeLoss.positiveIndices (labels i)).length :=
        List.length_pos.mpr hne
      unfold CosineHingeLoss.expanded_indices
      rw [List.length_take, tile_length]
      have h2 : n + 1 ≤ (n + 1)
          * (CosineHingeLoss.positiveIndices (labels i)).length :=
        Nat.le_mul_of_pos_right _ hlen1
      omega
    have hAll : ∀ i j,
        (CosineHingeLoss.sampleIndex (labels i) (rand i j)).isSome = true := by
      intro i j
      unfold CosineHingeLoss.sampleIndex
      rw [List.get?_eq_get (by rw [hlen i]; exact (rand i j).isLt)]
      rfl
    refine ⟨fun i j => (CosineHingeLoss.sampleIndex (labels i)
      (rand i j)).get (hAll i j), ?_, ?_⟩
    · unfold CosineHingeLoss.samplePositives
      rw [dif_pos hAll]
    · intro i j
      have hsome : CosineHingeLoss.sampleIndex (labels i) (rand i j) =
          some ((CosineHingeLoss.sampleIndex (labels i) (rand i j)).get
            (hAll i j)) := (Option.some_get (hAll i j)).symm
      have hget : (CosineHingeLoss.expanded_indices (labels i)).get?
          ((rand i j : ℕ)) = some ((CosineHingeLoss.sampleIndex (labels i)
            (rand i j)).get (hAll i j)) := hsome
      have hin : ((CosineHingeLoss.sampleIndex (labels i) (rand i j)).get
          (hAll i j)) ∈ CosineHingeLoss.expanded_indices (labels i) :=
        List.get?_mem hget
      have hintile : ((CosineHingeLoss.sampleIndex (labels i) (rand i j)).get
          (hAll i j)) ∈ tile (CosineHingeLoss.positiveIndices (labels i))
            (n + 1) := List.take_subset _ _ hin
      have hinpos : ((CosineHingeLoss.sampleIndex (labels i) (rand i j)).get
          (hAll i j)) ∈ CosineHingeLoss.positiveIndices (labels i) :=
        mem_of_mem_tile hintile
      have hdec := (List.mem_filter.mp hinpos).2
      simp only [decide_eq_true_eq] at hdec
      have hfl : (1 : ℤ) ≤ CosineHingeLoss.int_labels (labels i)
          ((CosineHingeLoss.sampleIndex (labels i) (rand i j)).get
            (hAll i j)) := hdec
      exact_mod_cast Int.le_floor.mp hfl

/-- C10 witness: with one example and one class, sampling fails on
the all-zero label row `[[0]]` and succeeds on the row `[[1]]`, where
every sampled index is a positively-labelled class. -/
theorem cosine_hinge_requires_positive_labels_witness :
    @CosineHingeLoss.samplePositives 1 1 (fun _ _ => 0) (fun _ _ => 0) =
        none ∧
      ∃ s, @CosineHingeLoss.samplePositives 1 1 (fun _ _ => 1)
          (fun _ _ => 0) = some s ∧
        ∀ (i j : Fin 1), (1 : ℝ) ≤ (fun (_ : Fin 1) (_ : Fin 1) => (1 : ℝ)) i
          (s i j) :=
  ⟨(cosine_hinge_requires_positive_labels (fun _ _ => 0) (fun _ _ => 0)).1
      ⟨0, fun _ => rfl⟩,
    (cosine_hinge_requires_positive_labels (fun _ _ => 1) (fun _ _ => 0)).2
      fun _ => ⟨0, le_refl 1⟩⟩

/-- C3 counterexample: with the valid input `predictions = [[1e-6]]`
(inside `(0,1)`) and `labels = [[0]]`, `CrossEntropyLoss.calculate_loss`
is strictly negative: the cell cost is `-log(1 - 1e-6 + 1e-5)` and the
argument of the logarithm exceeds 1 because the prediction is smaller
than the epsilon `10e-6`. -/
theorem cross_entropy_can_be_negative :
    (0 : ℝ) < 1e-6 ∧ (1e-6 : ℝ) < 1 ∧
      CrossEntropyLoss.calculate_loss
        (fun (_ : Fin 1) (_ : Fin 1) => (1e-6 : ℝ)) (fun _ _ => 0) < 0 := by
  refine ⟨by norm_num, by norm_num, ?_⟩
  unfold CrossEntropyLoss.calculate_loss reduce_mean reduce_sum1
  have hl : (0 : ℝ) < Real.log (1 - 1e-6 + 10e-6) :=
    Real.log_pos (by norm_num)
  simp only [Fin.sum_univ_one]
  norm_num at hl ⊢
  linarith

/-- The batch mean of a pointwise non-negative vector is
non-negative. -/
theorem reduce_mean_nonneg {m : ℕ} (v : Fin m → ℝ) (h : ∀ i, 0 ≤ v i) :
    0 ≤ reduce_mean v :=
  div_nonneg (Finset.sum_nonneg fun i _ => h i) (Nat.cast_nonneg m)

/-- Non-negativity of the weighted cross entropy when the weights are
non-negative, the labels lie in `[0, 1]` and every prediction lies in
`[ε, 1 - ε]` for the code's `ε = 10e-6`. -/
theorem wce_nonneg_helper {m n : ℕ} (fn fp : ℝ)
    (p y : Fin m → Fin n → ℝ) (hfn : 0 ≤ fn) (hfp : 0 ≤ fp)
    (hy : ∀ i j, 0 ≤ y i j ∧ y i j ≤ 1)
    (hp : ∀ i j, 10e-6 ≤ p i j ∧ p i j ≤ 1 - 10e-6) :
    0 ≤ WeightedCrossEntropyLoss.calculate_loss fn fp p y := by
  unfold WeightedCrossEntropyLoss.calculate_loss
  refine reduce_mean_nonneg _ fun i => Finset.sum_nonneg fun j _ => ?_
  have hy0 := (hy i j).1
  have hy1 := (hy i j).2
  have hp0 := (hp i j).1
  have hp1 := (hp i j).2
  have hlog1 : Real.log (p i j + 10e-6) ≤ 0 :=
    Real.log_nonpos (by linarith) (by linarith)
  have hlog2 : Real.log (1 - p i j + 10e-6) ≤ 0 :=
    Real.log_nonpos (by linarith) (by linarith)
  have t1 : 0 ≤ fn * y i j * -Real.log (p i j + 10e-6) :=
    mul_nonneg (mul_nonneg hfn hy0) (neg_nonneg.mpr hlog1)
  have t2 : 0 ≤ fp * (1 - y i j) * -Real.log (1 - p i j + 10e-6) :=
    mul_nonneg (mul_nonneg hfp (by linarith)) (neg_nonneg.mpr hlog2)
  nlinarith

/-- C3 amended: every loss output is a real number (finite in the real
model), and non-negativity holds as follows: the hinge and real-hinge
losses are non-negative (the latter for labels in `[0, 1]`), the
softmax loss is non-negative for non-negative labels, the two
cross-entropy losses are non-negative provided every prediction lies
in `[ε, 1 - ε]` for the code's `ε = 10e-6` (outside that band they can
be slightly negative, see the counterexample), and the scalar branch
of the cosine hinge loss is non-negative for labels in `[0, 1]` and a
non-negative `adaptive` weight. -/
theorem losses_nonneg_amended :
    (∀ (m n : ℕ) (p y : Fin m → Fin n → ℝ) (b : ℝ),
        0 ≤ HingeLoss.calculate_loss p y b) ∧
    (∀ (m n : ℕ) (p y : Fin m → Fin n → ℝ) (b : ℝ),
        (∀ i j, 0 ≤ y i j ∧ y i j ≤ 1) →
        0 ≤ RealHingeLoss.calculate_loss p y b) ∧
    (∀ (m n : ℕ) (p y : Fin m → Fin n → ℝ),
        (∀ i j, 0 ≤ y i j) → 0 ≤ SoftmaxLoss.calculate_loss p y) ∧
    (∀ (m n : ℕ) (fn fp : ℝ) (p y : Fin m → Fin n → ℝ),
        0 ≤ fn → 0 ≤ fp → (∀ i j, 0 ≤ y i j ∧ y i j ≤ 1) →
        (∀ i j, 10e-6 ≤ p i j ∧ p i j ≤ 1 - 10e-6) →
        0 ≤ WeightedCrossEntropyLoss.calculate_loss fn fp p y) ∧
    (∀ (m n : ℕ) (p y : Fin m → Fin n → ℝ),
        (∀ i j, 0 ≤ y i j ∧ y i j ≤ 1) →
        (∀ i j, 10e-6 ≤ p i j ∧ p i j ≤ 1 - 10e-6) →
        0 ≤ CrossEntropyLoss.calculate_loss p y) ∧
    (∀ (B D n : ℕ) (predictions : Fin B → Fin D → ℝ)
        (positives : Fin (n + 1) → Fin D → ℝ)
        (labels : Fin B → Fin (n + 1) → ℝ)
        (s : Fin B → Fin (n + 1) → Fin (n + 1)) (margin adaptive : ℝ),
        0 ≤ adaptive → (∀ i j, 0 ≤ labels i j ∧ labels i j ≤ 1) →
        0 ≤ adaptive
            * CosineHingeLoss.adaptive_loss predictions positives labels s margin
          + CosineHingeLoss.origin_loss predictions positives labels s margin) := by
  refine ⟨?_, ?_, ?_, ?_, ?_, ?_⟩
  · intro m n p y b
    unfold HingeLoss.calculate_loss
    exact reduce_mean_nonneg _ fun i =>
      Finset.sum_nonneg fun j _ => le_max_left 0 _
  · intro m n p y b hy
    unfold RealHingeLoss.calculate_loss
    exact reduce_mean_nonneg _ fun i =>
      Finset.sum_nonneg fun j _ => Finset.sum_nonneg fun k _ =>
        mul_nonneg (le_max_left 0 _)
          (mul_nonneg (hy i j).1
            (by show (0 : ℝ) ≤ 1 - y i k; linarith [(hy i k).2]))
  · intro m n p y hy
    unfold SoftmaxLoss.calculate_loss
    refine reduce_mean_nonneg _ fun i => ?_
    show 0 ≤ -(∑ j, y i j / max (∑ k, y i k) 10e-8
      * Real.log (Real.exp (p i j) / ∑ k, Real.exp (p i k)))
    refine neg_nonneg.mpr (Finset.sum_nonpos fun j _ => ?_)
    have hden : (0 : ℝ) < ∑ k, Real.exp (p i k) :=
      Finset.sum_pos (fun k _ => Real.exp_pos _) ⟨j, Finset.mem_univ j⟩
    have hle : Real.exp (p i j) ≤ ∑ k, Real.exp (p i k) :=
      Finset.single_le_sum (fun k _ => (Real.exp_pos _).le) (Finset.mem_univ j)
    have hlog : Real.log (Real.exp (p i j) / ∑ k, Real.exp (p i k)) ≤ 0 :=
      Real.log_nonpos (div_nonneg (Real.exp_pos _).le hden.le)
        ((div_le_one hden).mpr hle)
    have hy' : 0 ≤ y i j / max (∑ k, y i k) 10e-8 :=
      div_nonneg (hy i j) (le_max_of_le_right (by norm_num))
    nlinarith
  · intro m n fn fp p y hfn hfp hy hp
    exact wce_nonneg_helper fn fp p y hfn hfp hy hp
  · intro m n p y hy hp
    have heq : CrossEntropyLoss.calculate_loss p y =
        WeightedCrossEntropyLoss.calculate_loss 1 1 p y := by
      unfold CrossEntropyLoss.calculate_loss
        WeightedCrossEntropyLoss.calculate_loss
      simp [one_mul]
    rw [heq]
    exact wce_nonneg_helper 1 1 p y (by norm_num) (by norm_num) hy hp
  · intro B D n predictions positives labels s margin adaptive hadapt hlab
    have hhinge : ∀ i j,
        0 ≤ CosineHingeLoss.hinge_loss predictions positives s margin i j := by
      intro i j
      unfold CosineHingeLoss.hinge_loss
      exact le_max_right _ 0
    have hmw : ∀ i j,
        0 ≤ CosineHingeLoss.mask_wrong predictions positives labels i j := by
      intro i j
      unfold CosineHingeLoss.mask_wrong
      refine mul_nonneg ?_ (by linarith [(hlab i j).2])
      split <;> norm_num
    have hal : 0 ≤ CosineHingeLoss.adaptive_loss predictions positives labels
        s margin := by
      unfold CosineHingeLoss.adaptive_loss
      exact reduce_mean_nonneg _ fun i =>
        Finset.sum_nonneg fun j _ => mul_nonneg (hhinge i j) (hmw i j)
    have hol : 0 ≤ CosineHingeLoss.origin_loss predictions positives labels
        s margin := by
      unfold CosineHingeLoss.origin_loss
      exact reduce_mean_nonneg _ fun i =>
        Finset.sum_nonneg fun j _ =>
          mul_nonneg (hhinge i j) (by linarith [(hlab i j).2])
    exact add_nonneg (mul_nonneg hadapt hal) hol

/-- C3 witness: concrete instances of each conjunct at batch 1 with
one class — hinge at zeros, real hinge at zero labels, softmax at zero
labels, both cross entropies at `p = [[1/2]]`, `y = [[1]]`, and the
cosine-hinge scalar at all-ones inputs with `adaptive = 5`. -/
theorem losses_nonneg_amended_witness :
    0 ≤ HingeLoss.calculate_loss (fun (_ : Fin 1) (_ : Fin 1) => (0 : ℝ))
        (fun _ _ => 0) 1 ∧
    0 ≤ RealHingeLoss.calculate_loss (fun (_ : Fin 1) (_ : Fin 1) => (0 : ℝ))
        (fun _ _ => 0) 0.2 ∧
    0 ≤ SoftmaxLoss.calculate_loss (fun (_ : Fin 1) (_ : Fin 1) => (0 : ℝ))
        (fun _ _ => 0) ∧
    0 ≤ WeightedCrossEntropyLoss.calculate_loss 1 1
        (fun (_ : Fin 1) (_ : Fin 1) => (1 / 2 : ℝ)) (fun _ _ => 1) ∧
    0 ≤ CrossEntropyLoss.calculate_loss
        (fun (_ : Fin 1) (_ : Fin 1) => (1 / 2 : ℝ)) (fun _ _ => 1) ∧
    0 ≤ (5 : ℝ)
        * @CosineHingeLoss.adaptive_loss 1 1 0 (fun _ _ => 1) (fun _ _ => 1)
            (fun _ _ => 1) (fun _ _ => 0) 0.2
      + @CosineHingeLoss.origin_loss 1 1 0 (fun _ _ => 1) (fun _ _ => 1)
            (fun _ _ => 1) (fun _ _ => 0) 0.2 :=
  ⟨losses_nonneg_amended.1 1 1 (fun _ _ => 0) (fun _ _ => 0) 1,
    losses_nonneg_amended.2.1 1 1 (fun _ _ => 0) (fun _ _ => 0) 0.2
      (fun _ _ => by norm_num),
    losses_nonneg_amended.2.2.1 1 1 (fun _ _ => 0) (fun _ _ => 0)
      (fun _ _ => le_refl 0),
    losses_nonneg_amended.2.2.2.1 1 1 1 1 (fun _ _ => 1 / 2) (fun _ _ => 1)
      (by norm_num) (by norm_num) (fun _ _ => by norm_num)
      (fun _ _ => by norm_num),
    losses_nonneg_amended.2.2.2.2.1 1 1 (fun _ _ => 1 / 2) (fun _ _ => 1)
      (fun _ _ => by norm_num) (fun _ _ => by norm_num),
    losses_nonneg_amended.2.2.2.2.2 1 1 0 (fun _ _ => 1) (fun _ _ => 1)
      (fun _ _ => 1) (fun _ _ => 0) 0.2 5 (by norm_num)
      (fun _ _ => by norm_num)⟩
